import Mathlib

/-!
Verification of the administrative code harmonization engine of the
Mahsa-NHH/Data repository.

The definitions below are a shallow embedding of the KLASS municipality-code
harmonization logic found in `get_municipality_population_ssb_api.py`
(`roll_forward_codes`, `roll_back_codes`, `apply_special_case_edits`,
`build_income_output`, `build_population_output`) and in `get_ssb_data_api.py`
(the closure fixpoint loop around `t5012` and the module-level replay).

Modelling conventions:
* a pandas `Series` of municipality codes is a `List Int`;
* dates (`pd.Timestamp`) are `Nat` in `YYYYMMDD` form — only their total
  order matters to the algorithms;
* `Series.replace(dict)` is a simultaneous, non-chaining substitution: every
  element equal to a key of the dict is rewritten once to the corresponding
  value (`applyDict`); building the dict from a `Series` with duplicate index
  entries keeps the last pair, as `pandas.Series.to_dict` does;
* `np.sort(... .unique())` is `sortNat (... .dedup)`;
* the `np.unique` sets of the closure loop are `Finset Int` (only membership
  and cardinality of the unique array are ever used).
-/

namespace SSBData

/-- One row of the KLASS `changes.csv` table after renaming:
`oldCode → munid_from`, `newCode → munid_to`, `changeOccurred → date`. -/
structure ChangeEvent where
  munid_from : Int
  munid_to : Int
  date : Nat
deriving DecidableEq, Repr

/-- Insert a date into an ascending list, as a step of `np.sort`. -/
def insertSorted (x : Nat) : List Nat → List Nat
  | [] => [x]
  | y :: ys => if x ≤ y then x :: y :: ys else y :: insertSorted x ys

/-- Ascending sort of a date list (`np.sort`). -/
def sortNat (l : List Nat) : List Nat := l.foldr insertSorted []

/-- Apply a replacement dict to one value, as `Series.replace` does per
element: look the value up among the keys and rewrite it once; a dict built
from pairs with duplicate keys keeps the last pair (`Series.to_dict`). -/
def applyDict (pairs : List (Int × Int)) (x : Int) : Int :=
  match pairs.reverse.find? (fun q => decide (q.1 = x)) with
  | some q => q.2
  | none => x

/-- The ascending distinct change dates not after the anchor:
`np.sort(changes[changes.date <= until].date.unique())`. -/
def forwardDates (changes : List ChangeEvent) (anchor : Nat) : List Nat :=
  sortNat (((changes.map (fun e => e.date)).filter (fun t => decide (t ≤ anchor))).dedup)

/-- The replacement pairs of one change date, oriented forward:
`changes.loc[changes.date == d].set_index("munid_from")["munid_to"]`. -/
def forwardPairs (changes : List ChangeEvent) (d : Nat) : List (Int × Int) :=
  (changes.filter (fun e => decide (e.date = d))).map (fun e => (e.munid_from, e.munid_to))

/-- `roll_forward_codes` restricted to a single series element. -/
def rollForwardVal (changes : List ChangeEvent) (anchor : Nat) (x : Int) : Int :=
  (forwardDates changes anchor).foldl (fun v d => applyDict (forwardPairs changes d) v) x

/-- `roll_forward_codes(series_codes, changes, until)`: for each change date
`d ≤ until` in ascending order, `result = result.replace(mapping_at_d)`. -/
def roll_forward_codes (series_codes : List Int) (changes : List ChangeEvent)
    (anchor : Nat) : List Int :=
  (forwardDates changes anchor).foldl
    (fun result d => result.map (applyDict (forwardPairs changes d))) series_codes

/-- The descending distinct change dates strictly after the anchor:
`np.sort(changes[changes.date > after].date.unique())[::-1]`. -/
def backwardDates (changes : List ChangeEvent) (after : Nat) : List Nat :=
  (sortNat (((changes.map (fun e => e.date)).filter (fun t => decide (after < t))).dedup)).reverse

/-- The replacement pairs of one change date, oriented backward:
`changes.loc[changes.date == d].set_index("munid_to")["munid_from"]`. -/
def backwardPairs (changes : List ChangeEvent) (d : Nat) : List (Int × Int) :=
  (changes.filter (fun e => decide (e.date = d))).map (fun e => (e.munid_to, e.munid_from))

/-- `roll_back_codes` restricted to a single series element. -/
def rollBackVal (changes : List ChangeEvent) (after : Nat) (x : Int) : Int :=
  (backwardDates changes after).foldl (fun v d => applyDict (backwardPairs changes d) v) x

/-- `roll_back_codes(series_codes, changes, after)`: for each change date
`d > after` in descending order, `result = result.replace(mapping_at_d)`. -/
def roll_back_codes (series_codes : List Int) (changes : List ChangeEvent)
    (after : Nat) : List Int :=
  (backwardDates changes after).foldl
    (fun result d => result.map (applyDict (backwardPairs changes d))) series_codes

/-- The composed anchor mapping of `build_population_output`: forward replay
to the anchor date, then backward replay of post-anchor changes. -/
def anchorMapVal (changes : List ChangeEvent) (anchor : Nat) (x : Int) : Int :=
  rollBackVal changes anchor (rollForwardVal changes anchor x)

/-- The `drop_mask` rows of `apply_special_case_edits`. -/
def dropMask (e : ChangeEvent) : Bool :=
  (decide (e.munid_from = 114) && decide (e.munid_to = 128)) ||
  (decide (e.munid_from = 412) && decide (e.munid_to = 403)) ||
  (decide (e.munid_from = 720) && decide (e.munid_to = 704)) ||
  (decide (e.munid_from = 1850) && decide (e.munid_to = 1806)) ||
  (decide (e.munid_from = 5012) && decide (e.munid_to = 5056)) ||
  (decide (e.munid_from = 5012) && decide (e.munid_to = 5055))

/-- The `mask_haram` rows of `apply_special_case_edits`. -/
def haramMask (e : ChangeEvent) : Bool :=
  (decide (e.munid_from = 1534) && decide (e.munid_to = 1507)) ||
  (decide (e.munid_from = 1507) && decide (e.munid_to = 1580))

/-- Insert a change row into a date-ascending list (a `sort_values` step). -/
def insertByDate (e : ChangeEvent) : List ChangeEvent → List ChangeEvent
  | [] => [e]
  | f :: fs => if e.date ≤ f.date then e :: f :: fs else f :: insertByDate e fs

/-- `df.sort_values("date")`. -/
def sortByDate (l : List ChangeEvent) : List ChangeEvent := l.foldr insertByDate []

/-- `apply_special_case_edits(munichanges)`: drop the documented rows, drop the
two Haram/Ålesund rows, append the injected edge 1534→1580 dated 2024-01-01,
and sort by date. -/
def apply_special_case_edits (munichanges : List ChangeEvent) : List ChangeEvent :=
  sortByDate (((munichanges.filter (fun e => !dropMask e)).filter
    (fun e => !haramMask e)) ++ [⟨1534, 1580, 20240101⟩])

/-- All codes occurring in the change-event list (either endpoint). -/
def allCodes (events : List ChangeEvent) : Finset Int :=
  ((events.map (fun e => [e.munid_from, e.munid_to])).flatten).toFinset

/-- One pass of the closure fixpoint loop of `get_ssb_data_api.py`:
`np.unique(events[events.munid_from.isin(S) | events.munid_to.isin(S)]
[["munid_from","munid_to"]].values.flatten())`. -/
def closureStep (events : List ChangeEvent) (S : Finset Int) : Finset Int :=
  (((events.filter (fun e => decide (e.munid_from ∈ S) || decide (e.munid_to ∈ S))).map
    (fun e => [e.munid_from, e.munid_to])).flatten).toFinset

/-- The `while diff > 0` loop: replace the tracked set by `closureStep` of it
and stop as soon as its size no longer grows; `fuel` bounds the iterations. -/
def closureIter (events : List ChangeEvent) : Nat → Finset Int → Finset Int
  | 0, S => S
  | fuel + 1, S =>
    let T := closureStep events S
    if S.card < T.card then closureIter events fuel T else T

/-- `closure(seed_codes, events)`: the fixpoint loop started on the seed; the
fuel `(allCodes events).card + 1` is enough for the loop to reach its exit
condition (proved below). -/
def closure (events : List ChangeEvent) (seed : Finset Int) : Finset Int :=
  closureIter events ((allCodes events).card + 1) seed

/-- Undirected adjacency through one recorded change event. -/
def touches (events : List ChangeEvent) (x y : Int) : Prop :=
  ∃ e ∈ events, (e.munid_from = x ∧ e.munid_to = y) ∨ (e.munid_from = y ∧ e.munid_to = x)

/-- Transitive connection through chains of events, edges taken undirected. -/
def connectedTo (events : List ChangeEvent) (a c : Int) : Prop :=
  Relation.ReflTransGen (touches events) a c

/-- A code occurring as an endpoint of at least one change event. -/
@[reducible] def incident (events : List ChangeEvent) (a : Int) : Prop :=
  ∃ e ∈ events, e.munid_from = a ∨ e.munid_to = a

/-- One raw observation row: a region code, a period and a measure. -/
structure RawObservation where
  region : Int
  period : Nat
  population : Int
deriving DecidableEq, Repr

/-- The anchor code assigned to one observation by forward replay. -/
def anchorCode (changes : List ChangeEvent) (anchor : Nat) (o : RawObservation) : Int :=
  rollForwardVal changes anchor o.region

/-- Pre-mapping total of a set of codes in one period: the sum of the measure
over the observation rows whose raw region code lies in the group. -/
def preTotal (obs : List RawObservation) (G : Finset Int) (p : Nat) : Int :=
  ((obs.filter (fun o => decide (o.region ∈ G) && decide (o.period = p))).map
    (fun o => o.population)).sum

/-- Post-mapping total of one anchor code in one period, as recorded by the
groupby-sum of `build_population_output` after the composed anchor mapping. -/
def postTotal (obs : List RawObservation) (events : List ChangeEvent) (anchor : Nat)
    (a : Int) (p : Nat) : Int :=
  ((obs.filter (fun o => decide (anchorMapVal events anchor o.region = a) &&
    decide (o.period = p))).map (fun o => o.population)).sum

/-- One wide row of `build_income_output` before the final groupby:
index `(year, munid, munid2020)` with the two pivoted measures. -/
structure IncomeRow where
  year : Nat
  munid : Int
  munid2020 : Int
  nhouseholds : Rat
  income_posttax : Rat
deriving DecidableEq, Repr

/-- The rows of one `(year, munid2020)` group. -/
def groupRows (rows : List IncomeRow) (y : Nat) (m : Int) : List IncomeRow :=
  rows.filter (fun r => decide (r.year = y) && decide (r.munid2020 = m))

/-- The harmonized average income of one group, as `build_income_output`
computes it: `totincome = nhouseholds * income_posttax` per row, groupby-sum
of `nhouseholds` and `totincome`, then `income = totincome / nhouseholds`. -/
def groupIncome (rows : List IncomeRow) (y : Nat) (m : Int) : Rat :=
  ((groupRows rows y m).map (fun r => r.nhouseholds * r.income_posttax)).sum /
    ((groupRows rows y m).map (fun r => r.nhouseholds)).sum

/-- Spec-side definition: the household-weighted mean of `(weight, value)`
pairs, numerator and denominator summed separately and divided once. -/
def weightedMean (pairs : List (Rat × Rat)) : Rat :=
  (pairs.map (fun q => q.1 * q.2)).sum / (pairs.map (fun q => q.1)).sum

/-- Spec-side definition: the unweighted mean of the per-municipality
average incomes. -/
def avgOfAvgs (pairs : List (Rat × Rat)) : Rat :=
  (pairs.map (fun q => q.2)).sum / (pairs.length : Rat)

/-- The `(nhouseholds, income_posttax)` pairs of one group. -/
def groupPairs (rows : List IncomeRow) (y : Nat) (m : Int) : List (Rat × Rat) :=
  (groupRows rows y m).map (fun r => (r.nhouseholds, r.income_posttax))

/-- A date-wise fold of per-element substitutions over a whole series is the
per-element fold applied elementwise: `Series.replace` acts pointwise. -/
theorem foldl_map_comm (g : Nat → Int → Int) :
    ∀ (ds : List Nat) (s : List Int),
      ds.foldl (fun r d => r.map (g d)) s = s.map (fun x => ds.foldl (fun v d => g d v) x) := by
  intro ds
  induction ds with
  | nil => intro s; simp
  | cons d ds ih =>
    intro s
    simp [List.foldl_cons, ih (s.map (g d)), List.map_map, Function.comp]

/-- `roll_forward_codes` maps each series element through `rollForwardVal`. -/
theorem roll_forward_codes_eq_map (series : List Int) (changes : List ChangeEvent)
    (anchor : Nat) :
    roll_forward_codes series changes anchor = series.map (rollForwardVal changes anchor) := by
  unfold roll_forward_codes rollForwardVal
  exact foldl_map_comm (fun d v => applyDict (forwardPairs changes d) v) _ series

/-- `roll_back_codes` maps each series element through `rollBackVal`. -/
theorem roll_back_codes_eq_map (series : List Int) (changes : List ChangeEvent)
    (after : Nat) :
    roll_back_codes series changes after = series.map (rollBackVal changes after) := by
  unfold roll_back_codes rollBackVal
  exact foldl_map_comm (fun d v => applyDict (backwardPairs changes d) v) _ series

/-- Filtering the mapped date column equals mapping the filtered rows. -/
theorem filter_map_dates (p : Nat → Bool) :
    ∀ (l : List ChangeEvent),
      (l.map (fun e => e.date)).filter p = (l.filter (fun e => p e.date)).map (fun e => e.date) := by
  intro l
  induction l with
  | nil => rfl
  | cons e l ih =>
    by_cases h : p e.date
    · simp [List.filter_cons, h, ih]
    · simp [List.filter_cons, h, ih]

/-- If exactly one row survives a coarse filter, it is also the unique
survivor of any finer filter that it satisfies. -/
theorem filter_singleton_of_filter {α : Type} (p q : α → Bool) (a : α) :
    ∀ (l : List α), l.filter q = [a] → (∀ x, p x = true → q x = true) →
      p a = true → l.filter p = [a] := by
  intro l
  induction l with
  | nil => intro h; simp at h
  | cons x xs ih =>
    intro hq hpq hpa
    by_cases hqx : q x
    · rw [List.filter_cons_of_pos hqx] at hq
      have hxa : x = a := (List.cons.injEq _ _ _ _).mp hq |>.1
      have hrest : xs.filter q = [] := (List.cons.injEq _ _ _ _).mp hq |>.2
      have hrestp : xs.filter p = [] := by
        rw [List.filter_eq_nil_iff] at hrest ⊢
        intro b hb hpb
        exact hrest b hb (hpq b hpb)
      rw [List.filter_cons_of_pos (hxa ▸ hpa), hxa, hrestp]
    · have hpx : ¬ p x = true := fun hp => hqx (hpq x hp)
      rw [List.filter_cons_of_neg hqx] at hq
      rw [List.filter_cons_of_neg hpx]
      exact ih hq hpq hpa

/-- A nonempty constant list dedups to a singleton. -/
theorem dedup_allEq (d : Nat) :
    ∀ (l : List Nat), (∀ x ∈ l, x = d) → l ≠ [] → l.dedup = [d] := by
  intro l
  induction l with
  | nil => intro _ h; exact absurd rfl h
  | cons x xs ih =>
    intro hall _
    have hx : x = d := hall x (List.mem_cons_self x xs)
    cases xs with
    | nil => simp [hx]
    | cons y ys =>
      have hrest : (y :: ys).dedup = [d] :=
        ih (fun z hz => hall z (List.mem_cons_of_mem x hz)) (by simp)
      have hy : y = d := hall y (by simp)
      rw [List.dedup_cons_of_mem (by rw [hx, ← hy]; exact List.mem_cons_self y ys), hrest]

/-- Composition of a two-event chain across two distinct dates. -/
theorem chain_two (A B C : Int) (d1 d2 anchor : Nat) (h1 : d1 < d2) (h2 : d2 ≤ anchor) :
    rollForwardVal [⟨A, B, d1⟩, ⟨B, C, d2⟩] anchor A = C := by
  have hd1a : d1 ≤ anchor := le_trans (Nat.le_of_lt h1) h2
  have h12 : d1 ≠ d2 := Nat.ne_of_lt h1
  have h21 : d2 ≠ d1 := fun h => h12 h.symm
  have hle : d1 ≤ d2 := Nat.le_of_lt h1
  simp [rollForwardVal, forwardDates, forwardPairs, sortNat, insertSorted, applyDict,
    List.filter_cons, List.dedup_cons_of_not_mem, hd1a, h2, h12, h21, hle]

/-- Claim C1: chain composition of forward replay — for change events A→B at
`d1` and B→C at `d2` with `d1 < d2 ≤ anchor`, forward replay maps code A to
C (and hence not to B whenever B and C differ). -/
theorem claim_C1 (A B C : Int) (d1 d2 anchor : Nat) (h1 : d1 < d2) (h2 : d2 ≤ anchor) :
    rollForwardVal [⟨A, B, d1⟩, ⟨B, C, d2⟩] anchor A = C ∧
      (B ≠ C → rollForwardVal [⟨A, B, d1⟩, ⟨B, C, d2⟩] anchor A ≠ B) := by
  refine ⟨chain_two A B C d1 d2 anchor h1 h2, fun hBC h => ?_⟩
  rw [chain_two A B C d1 d2 anchor h1 h2] at h
  exact hBC h.symm

/-- Witness for claim C1 at the concrete chain 1→2 (date 10), 2→3 (date 20)
with anchor 20. -/
theorem claim_C1_witness :
    ((10 : Nat) < 20 ∧ (20 : Nat) ≤ 20) ∧
      rollForwardVal [⟨1, 2, 10⟩, ⟨2, 3, 20⟩] 20 1 = 3 :=
  ⟨by decide, (claim_C1 1 2 3 10 20 20 (by decide) (by decide)).1⟩

/-- Claim C10: no chaining within one date — two events A→B and B→C sharing
one effective date rewrite a value A to B only, while the same two events on
distinct ascending dates compose A to C. -/
theorem claim_C10 (A B C : Int) (d d1 d2 anchor : Nat) (hAB : A ≠ B) (hd : d ≤ anchor)
    (h1 : d1 < d2) (h2 : d2 ≤ anchor) :
    rollForwardVal [⟨A, B, d⟩, ⟨B, C, d⟩] anchor A = B ∧
      rollForwardVal [⟨A, B, d1⟩, ⟨B, C, d2⟩] anchor A = C := by
  have hBA : ¬ B = A := fun h => hAB h.symm
  refine ⟨?_, chain_two A B C d1 d2 anchor h1 h2⟩
  simp [rollForwardVal, forwardDates, forwardPairs, sortNat, insertSorted, applyDict,
    List.filter_cons, List.dedup_cons_of_mem, hd, hBA]

/-- Witness for claim C10 at the events 1→2 and 2→3: on the shared date 5
(anchor 6) the value 1 becomes 2; on dates 5 < 6 it becomes 3. -/
theorem claim_C10_witness :
    ((1 : Int) ≠ 2 ∧ (5 : Nat) ≤ 6 ∧ (5 : Nat) < 6 ∧ (6 : Nat) ≤ 6) ∧
      rollForwardVal [⟨1, 2, 5⟩, ⟨2, 3, 5⟩] 6 1 = 2 ∧
      rollForwardVal [⟨1, 2, 5⟩, ⟨2, 3, 6⟩] 6 1 = 3 := by
  refine ⟨by decide, ?_, ?_⟩
  · exact (claim_C10 1 2 3 5 5 6 6 (by decide) (by decide) (by decide) (by decide)).1
  · exact (claim_C10 1 2 3 5 5 6 6 (by decide) (by decide) (by decide) (by decide)).2

/-- Claim C9: last-wins on same-date splits — when every earlier event shares
the same effective date `d` and the same source code A, forward replay sends
a value A to the target of the last such event in list order. -/
theorem claim_C9 (es : List ChangeEvent) (A B : Int) (d anchor : Nat)
    (hes : ∀ e ∈ es, e.date = d ∧ e.munid_from = A) (hd : d ≤ anchor) :
    rollForwardVal (es ++ [ChangeEvent.mk A B d]) anchor A = B := by
  have hdates : ((es ++ [ChangeEvent.mk A B d]).map (fun e => e.date)).filter (fun t => decide (t ≤ anchor))
      = (es ++ [ChangeEvent.mk A B d]).map (fun e => e.date) := by
    apply List.filter_eq_self.mpr
    intro t ht
    rcases List.mem_map.mp ht with ⟨e, he, rfl⟩
    rcases List.mem_append.mp he with h | h
    · exact decide_eq_true (((hes e h).1) ▸ hd)
    · simp only [List.mem_singleton] at h
      subst h
      exact decide_eq_true hd
  have hall : ∀ x ∈ (es ++ [ChangeEvent.mk A B d]).map (fun e => e.date), x = d := by
    intro t ht
    rcases List.mem_map.mp ht with ⟨e, he, rfl⟩
    rcases List.mem_append.mp he with h | h
    · exact (hes e h).1
    · simp only [List.mem_singleton] at h
      subst h
      rfl
  have hne : (es ++ [ChangeEvent.mk A B d]).map (fun e => e.date) ≠ [] := by simp
  have hdedup : ((es ++ [ChangeEvent.mk A B d]).map (fun e => e.date)).dedup = [d] :=
    dedup_allEq d _ hall hne
  have hpairs : forwardPairs (es ++ [ChangeEvent.mk A B d]) d
      = es.map (fun e => (e.munid_from, e.munid_to)) ++ [(A, B)] := by
    unfold forwardPairs
    rw [List.filter_eq_self.mpr]
    · simp
    · intro e he
      rcases List.mem_append.mp he with h | h
      · exact decide_eq_true ((hes e h).1)
      · simp only [List.mem_singleton] at h
        subst h
        exact decide_eq_true rfl
  unfold rollForwardVal forwardDates
  rw [hdates, hdedup]
  simp [sortNat, insertSorted, applyDict, hpairs]

/-- Witness for claim C9 at the 5012 three-way split of 2020-01-01: the last
listed successor 5059 wins. -/
theorem claim_C9_witness :
    (∀ e ∈ [ChangeEvent.mk 5012 5056 20200101, ChangeEvent.mk 5012 5055 20200101],
      e.date = 20200101 ∧ e.munid_from = 5012) ∧
      rollForwardVal ([⟨5012, 5056, 20200101⟩, ⟨5012, 5055, 20200101⟩] ++
        [⟨5012, 5059, 20200101⟩]) 20200101 5012 = 5059 :=
  ⟨by decide, claim_C9 [⟨5012, 5056, 20200101⟩, ⟨5012, 5055, 20200101⟩] 5012 5059
    20200101 20200101 (by decide) (by decide)⟩

/-- Claim C7 counterexample: the event list 1→2 (date 10), 2→1 (date 20) is
cyclic (code 1 reaches itself through a chain of edges), yet forward replay
returns a mapping — it sends 1 to 1 and 2 to 1 — instead of raising; no
`CyclicChangeError` (or any other failure path) exists in the replay code. -/
theorem claim_C7_counterexample :
    rollForwardVal [⟨1, 2, 10⟩, ⟨2, 1, 20⟩] 20 1 = 1 ∧
      rollForwardVal [⟨1, 2, 10⟩, ⟨2, 1, 20⟩] 20 2 = 1 := by decide

/-- Claim C7 amended: replay performs no cycle detection and never raises;
on a cyclic event list it returns the mapping obtained by applying the events
in ascending date order — for the two-cycle A→B at `d1`, B→A at `d2` both A
and B end up mapped to A. -/
theorem claim_C7 (A B : Int) (d1 d2 anchor : Nat) (h1 : d1 < d2) (h2 : d2 ≤ anchor) :
    rollForwardVal [⟨A, B, d1⟩, ⟨B, A, d2⟩] anchor A = A ∧
      rollForwardVal [⟨A, B, d1⟩, ⟨B, A, d2⟩] anchor B = A := by
  have hd1a : d1 ≤ anchor := le_trans (Nat.le_of_lt h1) h2
  have h12 : d1 ≠ d2 := Nat.ne_of_lt h1
  have h21 : d2 ≠ d1 := fun h => h12 h.symm
  have hle : d1 ≤ d2 := Nat.le_of_lt h1
  refine ⟨chain_two A B A d1 d2 anchor h1 h2, ?_⟩
  by_cases hAB : A = B
  · subst hAB
    simp [rollForwardVal, forwardDates, forwardPairs, sortNat, insertSorted, applyDict,
      List.filter_cons, List.dedup_cons_of_not_mem, hd1a, h2, h12, h21, hle]
  · simp [rollForwardVal, forwardDates, forwardPairs, sortNat, insertSorted, applyDict,
      List.filter_cons, List.dedup_cons_of_not_mem, hd1a, h2, h12, h21, hle, hAB]

/-- Claim C2: backward replay of a single post-anchor edge — when the only
event dated after the anchor is X→Y at `d`, `roll_back_codes` rewrites exactly
the series entries whose current value is Y to X and leaves all others
unchanged. -/
theorem claim_C2 (events : List ChangeEvent) (X Y : Int) (d after : Nat)
    (series : List Int)
    (h : events.filter (fun e => decide (after < e.date)) = [ChangeEvent.mk X Y d]) :
    roll_back_codes series events after = series.map (fun v => if v = Y then X else v) := by
  have hmem : ChangeEvent.mk X Y d ∈ events.filter (fun e => decide (after < e.date)) := by
    rw [h]
    exact List.mem_singleton_self _
  have hd : after < d := of_decide_eq_true (List.mem_filter.mp hmem).2
  have hdates : (events.map (fun e => e.date)).filter (fun t => decide (after < t))
      = [d] := by
    rw [filter_map_dates, h]
    rfl
  have hfiltd : events.filter (fun e => decide (e.date = d)) = [ChangeEvent.mk X Y d] := by
    refine filter_singleton_of_filter _ _ _ events h ?_ ?_
    · intro x hx
      have hxd : x.date = d := of_decide_eq_true hx
      exact decide_eq_true (hxd ▸ hd)
    · exact decide_eq_true rfl
  have hpairs : backwardPairs events d = [(Y, X)] := by
    unfold backwardPairs
    rw [hfiltd]
    rfl
  have hbd : backwardDates events after = [d] := by
    unfold backwardDates
    rw [hdates]
    rfl
  unfold roll_back_codes
  rw [hbd]
  simp only [List.foldl_cons, List.foldl_nil, hpairs]
  refine List.map_congr_left ?_
  intro v _
  by_cases hv : v = Y
  · subst hv
    simp [applyDict]
  · have hYv : ¬ (Y = v) := fun hh => hv hh.symm
    simp [applyDict, hv, hYv]

/-- Witness for claim C2: with events 1→2 (date 5) and 7→8 (date 30) and
anchor 10, the only post-anchor edge is 7→8, and backward replay rewrites the
series entries equal to 8 back to 7. -/
theorem claim_C2_witness :
    ([ChangeEvent.mk 1 2 5, ChangeEvent.mk 7 8 30].filter
      (fun e => decide (10 < e.date)) = [ChangeEvent.mk 7 8 30]) ∧
      roll_back_codes [8, 3, 7] [ChangeEvent.mk 1 2 5, ChangeEvent.mk 7 8 30] 10
        = [8, 3, 7].map (fun v => if v = 8 then 7 else v) :=
  ⟨by decide, claim_C2 [ChangeEvent.mk 1 2 5, ChangeEvent.mk 7 8 30] 7 8 30 10
    [8, 3, 7] (by decide)⟩

/-- Claim C4: override scenario — after `apply_special_case_edits` suppresses
the edge 1534→1507 (2020-01-01) and injects 1534→1580 (2024-01-01), forward
replay at anchor 2024-01-01 maps 1534 to 1580, and the raw observation
(region 1534, period 2022) receives anchor code 1580. -/
theorem claim_C4 :
    rollForwardVal (apply_special_case_edits
      [ChangeEvent.mk 1534 1507 20200101, ChangeEvent.mk 1507 1580 20240101])
      20240101 1534 = 1580 ∧
      anchorCode (apply_special_case_edits
        [ChangeEvent.mk 1534 1507 20200101, ChangeEvent.mk 1507 1580 20240101])
        20240101 ⟨1534, 2022, 100⟩ = 1580 := by decide

/-- Claim C5: ratio-measure aggregation — the harmonized average income of a
`(year, anchor code)` group is the household-weighted mean (numerator and
denominator summed separately, divided once), and differs from the unweighted
mean of the per-municipality averages whenever the two disagree. -/
theorem claim_C5 (rows : List IncomeRow) (y : Nat) (m : Int) :
    groupIncome rows y m = weightedMean (groupPairs rows y m) ∧
      (avgOfAvgs (groupPairs rows y m) ≠ weightedMean (groupPairs rows y m) →
        groupIncome rows y m ≠ avgOfAvgs (groupPairs rows y m)) := by
  have h : groupIncome rows y m = weightedMean (groupPairs rows y m) := by
    unfold groupIncome weightedMean groupPairs
    simp only [List.map_map]
    rfl
  exact ⟨h, fun hne heq => hne ((h.symm.trans heq).symm)⟩

/-- Witness for claim C5 on a group of two municipalities with households 1
and 3 and average incomes 0 and 4: the weighted mean is 3, the average of
averages is 2, and the pipeline output is the weighted mean. -/
theorem claim_C5_witness :
    (avgOfAvgs (groupPairs [⟨2020, 1, 9, 1, 0⟩, ⟨2020, 2, 9, 3, 4⟩] 2020 9) ≠
      weightedMean (groupPairs [⟨2020, 1, 9, 1, 0⟩, ⟨2020, 2, 9, 3, 4⟩] 2020 9)) ∧
      groupIncome [⟨2020, 1, 9, 1, 0⟩, ⟨2020, 2, 9, 3, 4⟩] 2020 9 ≠
        avgOfAvgs (groupPairs [⟨2020, 1, 9, 1, 0⟩, ⟨2020, 2, 9, 3, 4⟩] 2020 9) := by
  have hne : avgOfAvgs (groupPairs [⟨2020, 1, 9, 1, 0⟩, ⟨2020, 2, 9, 3, 4⟩] 2020 9) ≠
      weightedMean (groupPairs [⟨2020, 1, 9, 1, 0⟩, ⟨2020, 2, 9, 3, 4⟩] 2020 9) := by
    norm_num [avgOfAvgs, weightedMean, groupPairs, groupRows]
  exact ⟨hne, (claim_C5 [⟨2020, 1, 9, 1, 0⟩, ⟨2020, 2, 9, 3, 4⟩] 2020 9).2 hne⟩

/-- Witness for claim C7 at the concrete cycle 5→6 (date 10), 6→5 (date 20)
with anchor 20. -/
theorem claim_C7_witness :
    ((10 : Nat) < 20 ∧ (20 : Nat) ≤ 20) ∧
      rollForwardVal [⟨5, 6, 10⟩, ⟨6, 5, 20⟩] 20 5 = 5 ∧
      rollForwardVal [⟨5, 6, 10⟩, ⟨6, 5, 20⟩] 20 6 = 5 :=
  ⟨by decide, claim_C7 5 6 10 20 20 (by decide) (by decide)⟩

/-- Membership in one closure pass: the endpoints of the events incident to
the tracked set. -/
theorem mem_closureStep (events : List ChangeEvent) (S : Finset Int) (c : Int) :
    c ∈ closureStep events S ↔
      ∃ e ∈ events, (e.munid_from ∈ S ∨ e.munid_to ∈ S) ∧
        (c = e.munid_from ∨ c = e.munid_to) := by
  simp only [closureStep, List.mem_toFinset, List.mem_flatten, List.mem_map]
  constructor
  · rintro ⟨l, ⟨e, he, rfl⟩, hcl⟩
    have hf := List.mem_filter.mp he
    have hor : e.munid_from ∈ S ∨ e.munid_to ∈ S := by
      have := hf.2
      simp only [Bool.or_eq_true, decide_eq_true_eq] at this
      exact this
    refine ⟨e, hf.1, hor, ?_⟩
    simpa using hcl
  · rintro ⟨e, he, hS, hc⟩
    refine ⟨[e.munid_from, e.munid_to], ⟨e, List.mem_filter.mpr ⟨he, ?_⟩, rfl⟩, ?_⟩
    · simp only [Bool.or_eq_true, decide_eq_true_eq]
      exact hS
    · simpa using hc

/-- Every code produced by a closure pass occurs in the event list. -/
theorem closureStep_subset_allCodes (events : List ChangeEvent) (S : Finset Int) :
    closureStep events S ⊆ allCodes events := by
  intro c hc
  rcases (mem_closureStep events S c).mp hc with ⟨e, he, _, hc2⟩
  simp only [allCodes, List.mem_toFinset, List.mem_flatten, List.mem_map]
  refine ⟨[e.munid_from, e.munid_to], ⟨e, he, rfl⟩, ?_⟩
  simpa using hc2

/-- When every tracked code lies on some event, a closure pass keeps it. -/
theorem subset_closureStep (events : List ChangeEvent) (S : Finset Int)
    (hinc : ∀ a ∈ S, incident events a) : S ⊆ closureStep events S := by
  intro a ha
  rcases hinc a ha with ⟨e, he, hfa | hta⟩
  · exact (mem_closureStep events S a).mpr ⟨e, he, Or.inl (hfa ▸ ha), Or.inl hfa.symm⟩
  · exact (mem_closureStep events S a).mpr ⟨e, he, Or.inr (hta ▸ ha), Or.inr hta.symm⟩

/-- Every code produced by a closure pass lies on some event. -/
theorem closureStep_incident (events : List ChangeEvent) (S : Finset Int) :
    ∀ c ∈ closureStep events S, incident events c := by
  intro c hc
  rcases (mem_closureStep events S c).mp hc with ⟨e, he, _, hc2⟩
  rcases hc2 with h | h
  · exact ⟨e, he, Or.inl h.symm⟩
  · exact ⟨e, he, Or.inr h.symm⟩

/-- Every code produced by a closure pass is connected to the tracked set. -/
theorem closureStep_reach (events : List ChangeEvent) (S : Finset Int) :
    ∀ c ∈ closureStep events S, ∃ b ∈ S, Relation.ReflTransGen (touches events) b c := by
  intro c hc
  rcases (mem_closureStep events S c).mp hc with ⟨e, he, hS, hc2⟩
  rcases hS with hS | hS <;> rcases hc2 with rfl | rfl
  · exact ⟨e.munid_from, hS, Relation.ReflTransGen.refl⟩
  · exact ⟨e.munid_from, hS, Relation.ReflTransGen.single ⟨e, he, Or.inl ⟨rfl, rfl⟩⟩⟩
  · exact ⟨e.munid_to, hS, Relation.ReflTransGen.single ⟨e, he, Or.inr ⟨rfl, rfl⟩⟩⟩
  · exact ⟨e.munid_to, hS, Relation.ReflTransGen.refl⟩

/-- A fixpoint of the closure pass is closed under event adjacency. -/
theorem fixpoint_closed (events : List ChangeEvent) (S : Finset Int)
    (hfix : closureStep events S = S) :
    ∀ b ∈ S, ∀ c, touches events b c → c ∈ S := by
  intro b hb c htc
  rcases htc with ⟨e, he, ⟨hbf, hct⟩ | ⟨hcf, hbt⟩⟩
  · rw [← hfix]
    exact (mem_closureStep events S c).mpr ⟨e, he, Or.inl (hbf ▸ hb), Or.inr hct.symm⟩
  · rw [← hfix]
    exact (mem_closureStep events S c).mpr ⟨e, he, Or.inr (hbt ▸ hb), Or.inl hcf.symm⟩

/-- A predicate closed under adjacency is closed under connection. -/
theorem reach_preserve (events : List ChangeEvent) (P : Int → Prop)
    (hP : ∀ b c, P b → touches events b c → P c) :
    ∀ b c, Relation.ReflTransGen (touches events) b c → P b → P c := by
  intro b c h hb
  induction h with
  | refl => exact hb
  | tail _ hlast ih => exact hP _ _ ih hlast

/-- Soundness of the bounded loop: every code it returns satisfies any
adjacency-closed predicate holding on the start set. -/
theorem closureIter_sound (events : List ChangeEvent) (P : Int → Prop)
    (hP : ∀ b c, P b → touches events b c → P c) :
    ∀ (fuel : Nat) (S : Finset Int), (∀ a ∈ S, P a) →
      ∀ c ∈ closureIter events fuel S, P c := by
  intro fuel
  induction fuel with
  | zero => intro S hS c hc; exact hS c hc
  | succ fuel ih =>
    intro S hS c hc
    have hstepP : ∀ a ∈ closureStep events S, P a := by
      intro a ha
      rcases closureStep_reach events S a ha with ⟨b, hb, hreach⟩
      exact reach_preserve events P hP b a hreach (hS b hb)
    have hunfold : closureIter events (fuel + 1) S =
        (if S.card < (closureStep events S).card
          then closureIter events fuel (closureStep events S)
          else closureStep events S) := rfl
    rw [hunfold] at hc
    by_cases hlt : S.card < (closureStep events S).card
    · rw [if_pos hlt] at hc
      exact ih (closureStep events S) hstepP c hc
    · rw [if_neg hlt] at hc
      exact hstepP c hc

/-- With enough fuel and an all-incident start set, the loop reaches a
fixpoint of the closure pass that contains the start set. -/
theorem closureIter_fixpoint (events : List ChangeEvent) :
    ∀ (fuel : Nat) (S : Finset Int), (∀ a ∈ S, incident events a) →
      (allCodes events).card + 1 ≤ fuel + S.card →
      S ⊆ closureIter events fuel S ∧
        closureStep events (closureIter events fuel S) = closureIter events fuel S := by
  intro fuel
  induction fuel with
  | zero =>
    intro S hinc hcard
    exfalso
    have hsub : S ⊆ allCodes events := by
      intro a ha
      rcases hinc a ha with ⟨e, he, h⟩
      simp only [allCodes, List.mem_toFinset, List.mem_flatten, List.mem_map]
      refine ⟨[e.munid_from, e.munid_to], ⟨e, he, rfl⟩, ?_⟩
      rcases h with h | h <;> simp [← h]
    have := Finset.card_le_card hsub
    omega
  | succ fuel ih =>
    intro S hinc hcard
    have hstep : S ⊆ closureStep events S := subset_closureStep events S hinc
    have hunfold : closureIter events (fuel + 1) S =
        (if S.card < (closureStep events S).card
          then closureIter events fuel (closureStep events S)
          else closureStep events S) := rfl
    by_cases hlt : S.card < (closureStep events S).card
    · have hres := ih (closureStep events S) (closureStep_incident events S) (by omega)
      rw [hunfold, if_pos hlt]
      exact ⟨subset_trans hstep hres.1, hres.2⟩
    · have heq : S = closureStep events S :=
        Finset.eq_of_subset_of_card_le hstep (Nat.le_of_not_lt hlt)
      rw [hunfold, if_neg hlt]
      exact ⟨hstep, by rw [← heq, ← heq]⟩

/-- Claim C3 counterexample: seed code 1 is (trivially) transitively
connected to itself, but with the unrelated event 2→3 the loop returns the
empty set — the tracked set is replaced by the endpoints of incident edges
without keeping the seed, so the result is not `{1}` as the claim requires. -/
theorem claim_C3_counterexample :
    closure [ChangeEvent.mk 2 3 10] ({1} : Finset Int) ≠ {1} := by decide

/-- Claim C3 amended: for every event list and every seed set whose codes
each occur in at least one event, the closure loop returns exactly the set of
codes transitively connected to the seed (edges taken undirected); seed codes
incident to no event are dropped by the loop. -/
theorem claim_C3 (events : List ChangeEvent) (seed : Finset Int)
    (hseed : ∀ a ∈ seed, incident events a) :
    (closure events seed : Set Int) = {c : Int | ∃ a ∈ seed, connectedTo events a c} := by
  have hfix := closureIter_fixpoint events ((allCodes events).card + 1) seed hseed (by omega)
  ext c
  simp only [Finset.coe_sort_coe, Finset.mem_coe, Set.mem_setOf_eq]
  constructor
  · intro hc
    refine closureIter_sound events (fun x => ∃ a ∈ seed, connectedTo events a x)
      ?_ ((allCodes events).card + 1) seed ?_ c hc
    · rintro b x ⟨a, ha, hab⟩ hbx
      exact ⟨a, ha, Relation.ReflTransGen.tail hab hbx⟩
    · intro a ha
      exact ⟨a, ha, Relation.ReflTransGen.refl⟩
  · rintro ⟨a, ha, hac⟩
    have hclosed := fixpoint_closed events _ hfix.2
    unfold connectedTo at hac
    induction hac with
    | refl => exact hfix.1 ha
    | tail _ hlast ih => exact hclosed _ ih _ hlast

/-- Witness for claim C3 at the 5012 split scenario: every seed code occurs
in an event, the returned set is exactly the connected component, and it
equals `{5012, 5055, 5056, 5059}`. -/
theorem claim_C3_witness :
    (∀ a ∈ ({5012} : Finset Int),
      incident [ChangeEvent.mk 5012 5056 20200101, ChangeEvent.mk 5012 5055 20200101,
        ChangeEvent.mk 5012 5059 20200101] a) ∧
    (closure [ChangeEvent.mk 5012 5056 20200101, ChangeEvent.mk 5012 5055 20200101,
        ChangeEvent.mk 5012 5059 20200101] ({5012} : Finset Int) : Set Int) =
      {c : Int | ∃ a ∈ ({5012} : Finset Int),
        connectedTo [ChangeEvent.mk 5012 5056 20200101, ChangeEvent.mk 5012 5055 20200101,
          ChangeEvent.mk 5012 5059 20200101] a c} ∧
    closure [ChangeEvent.mk 5012 5056 20200101, ChangeEvent.mk 5012 5055 20200101,
        ChangeEvent.mk 5012 5059 20200101] ({5012} : Finset Int) =
      ({5012, 5055, 5056, 5059} : Finset Int) :=
  ⟨by decide, claim_C3 _ _ (by decide), by decide⟩

/-- Claim C8: closure termination — every tracked set after at least one pass
is drawn from the finite universe of codes occurring in the events, and some
iteration produces no growth in the set's size, which is the loop's exit
condition. -/
theorem claim_C8 (events : List ChangeEvent) (S : Finset Int) :
    (∀ n : Nat, (closureStep events)^[n + 1] S ⊆ allCodes events) ∧
      ∃ n : Nat, ((closureStep events)^[n + 1] S).card ≤
        ((closureStep events)^[n] S).card := by
  have hsub : ∀ n : Nat, (closureStep events)^[n + 1] S ⊆ allCodes events := by
    intro n
    rw [Function.iterate_succ_apply']
    exact closureStep_subset_allCodes events _
  refine ⟨hsub, ?_⟩
  by_contra h
  push_neg at h
  have hmono : ∀ n : Nat, n < ((closureStep events)^[n + 1] S).card := by
    intro n
    induction n with
    | zero => exact Nat.lt_of_le_of_lt (Nat.zero_le _) (h 0)
    | succ n ih => exact Nat.lt_of_le_of_lt ih (h (n + 1))
  have hbound := Finset.card_le_card (hsub ((allCodes events).card + 1))
  have := hmono ((allCodes events).card + 1)
  omega

/-- Forward replay of a single pre-anchor event rewrites A to B and fixes
every other code. -/
theorem rollForwardVal_single (A B : Int) (d anchor : Nat) (hd : d ≤ anchor) (c : Int) :
    rollForwardVal [ChangeEvent.mk A B d] anchor c = if c = A then B else c := by
  by_cases hc : c = A
  · subst hc
    simp [rollForwardVal, forwardDates, forwardPairs, sortNat, insertSorted, applyDict, hd]
  · have hAc : ¬ (A = c) := fun h => hc h.symm
    simp [rollForwardVal, forwardDates, forwardPairs, sortNat, insertSorted, applyDict,
      hd, hc, hAc]

/-- Backward replay of a single pre-anchor event is the identity: no change
date lies after the anchor. -/
theorem rollBackVal_single (A B : Int) (d anchor : Nat) (hd : d ≤ anchor) (c : Int) :
    rollBackVal [ChangeEvent.mk A B d] anchor c = c := by
  have hnot : ¬ (anchor < d) := Nat.not_lt.mpr hd
  simp [rollBackVal, backwardDates, sortNat, hnot]

/-- The composed anchor mapping of a single pre-anchor merge edge. -/
theorem anchorMapVal_single (A B : Int) (d anchor : Nat) (hd : d ≤ anchor) (c : Int) :
    anchorMapVal [ChangeEvent.mk A B d] anchor c = if c = A then B else c := by
  unfold anchorMapVal
  rw [rollForwardVal_single A B d anchor hd c, rollBackVal_single A B d anchor hd]

/-- One pass of the closure loop on the seed of a single merge edge. -/
theorem closureStep_single (A B : Int) (d : Nat) (S : Finset Int) (hA : A ∈ S) :
    closureStep [ChangeEvent.mk A B d] S = ({A, B} : Finset Int) := by
  ext c
  rw [mem_closureStep]
  simp [hA, Finset.mem_insert]

/-- The closure group of a single 1-to-1 merge A→B seeded at A is `{A, B}`. -/
theorem closure_single (A B : Int) (d : Nat) (hAB : A ≠ B) :
    closure [ChangeEvent.mk A B d] {A} = ({A, B} : Finset Int) := by
  have hcard1 : ({A} : Finset Int).card = 1 := Finset.card_singleton A
  have hcard2 : ({A, B} : Finset Int).card = 2 := by
    rw [Finset.card_insert_of_not_mem (by simp [hAB]), Finset.card_singleton]
  have hall : allCodes [ChangeEvent.mk A B d] = ({A, B} : Finset Int) := by
    simp [allCodes]
  have hstep1 : closureStep [ChangeEvent.mk A B d] {A} = ({A, B} : Finset Int) :=
    closureStep_single A B d {A} (Finset.mem_singleton_self A)
  have hstep2 : closureStep [ChangeEvent.mk A B d] {A, B} = ({A, B} : Finset Int) :=
    closureStep_single A B d {A, B} (Finset.mem_insert_self A {B})
  have hu3 : closureIter [ChangeEvent.mk A B d] 3 {A}
      = closureIter [ChangeEvent.mk A B d] 2 ({A, B} : Finset Int) := by
    have hunfold : closureIter [ChangeEvent.mk A B d] 3 {A}
        = (if ({A} : Finset Int).card < (closureStep [ChangeEvent.mk A B d] {A}).card
            then closureIter [ChangeEvent.mk A B d] 2 (closureStep [ChangeEvent.mk A B d] {A})
            else closureStep [ChangeEvent.mk A B d] {A}) := rfl
    rw [hunfold, hstep1, hcard1, hcard2, if_pos (by omega)]
  have hu2 : closureIter [ChangeEvent.mk A B d] 2 ({A, B} : Finset Int)
      = ({A, B} : Finset Int) := by
    have hunfold : closureIter [ChangeEvent.mk A B d] 2 ({A, B} : Finset Int)
        = (if ({A, B} : Finset Int).card < (closureStep [ChangeEvent.mk A B d] {A, B}).card
            then closureIter [ChangeEvent.mk A B d] 1 (closureStep [ChangeEvent.mk A B d] {A, B})
            else closureStep [ChangeEvent.mk A B d] {A, B}) := rfl
    rw [hunfold, hstep2, hcard2, if_neg (by omega)]
  unfold closure
  rw [hall, hcard2]
  rw [hu3, hu2]

/-- Claim C6: conservation under aggregation — for a pure 1-to-1 merge A→B at
`d ≤ anchor` with no overrides, the closure group seeded at A is `{A, B}`,
and for every period the sum of the pre-mapping totals over that group equals
the post-mapping total recorded for the anchor code B. -/
theorem claim_C6 (A B : Int) (d anchor p : Nat) (obs : List RawObservation)
    (hAB : A ≠ B) (hd : d ≤ anchor) :
    closure [ChangeEvent.mk A B d] {A} = ({A, B} : Finset Int) ∧
      preTotal obs ({A, B} : Finset Int) p =
        postTotal obs [ChangeEvent.mk A B d] anchor B p := by
  refine ⟨closure_single A B d hAB, ?_⟩
  unfold preTotal postTotal
  have hfilters : obs.filter (fun o => decide (o.region ∈ ({A, B} : Finset Int)) &&
      decide (o.period = p)) = obs.filter
      (fun o => decide (anchorMapVal [ChangeEvent.mk A B d] anchor o.region = B) &&
        decide (o.period = p)) := by
    refine List.filter_congr ?_
    intro o _
    have hmap := anchorMapVal_single A B d anchor hd o.region
    congr 1
    rw [decide_eq_decide, hmap]
    by_cases ho : o.region = A
    · simp [ho]
    · simp [ho, Finset.mem_insert]
  rw [hfilters]

/-- Witness for claim C6 at the merge 1→2 (date 5, anchor 10) with three
observations in period 2000: the group total 7 + 8 is conserved under the
mapping onto anchor code 2. -/
theorem claim_C6_witness :
    ((1 : Int) ≠ 2 ∧ (5 : Nat) ≤ 10) ∧
      (closure [ChangeEvent.mk 1 2 5] {1} = ({1, 2} : Finset Int) ∧
        preTotal [⟨1, 2000, 7⟩, ⟨2, 2000, 8⟩, ⟨3, 2000, 9⟩, ⟨1, 1999, 4⟩]
          ({1, 2} : Finset Int) 2000 =
          postTotal [⟨1, 2000, 7⟩, ⟨2, 2000, 8⟩, ⟨3, 2000, 9⟩, ⟨1, 1999, 4⟩]
            [ChangeEvent.mk 1 2 5] 10 2 2000) :=
  ⟨by decide, claim_C6 1 2 5 10 2000
    [⟨1, 2000, 7⟩, ⟨2, 2000, 8⟩, ⟨3, 2000, 9⟩, ⟨1, 1999, 4⟩] (by decide) (by decide)⟩

end SSBData
